import Mathlib

/-!
Verification of the key-path extraction algorithm (`get_keys` in
`src/scripts/extract_keys.py`).

The script walks a parsed JSON value and returns a deduplicated list of
dotted/bracketed key paths.  We embed the JSON data model and the `get_keys`
function, and prove (or refute) the specified properties about it.
-/

/-- Scalar JSON values: the non-container leaves (string, number, boolean,
null).  `get_keys` never inspects the payload of a scalar. -/
inductive Scalar where
  | str (s : String)
  | num (n : Int)
  | bool (b : Bool)
  | null
deriving DecidableEq

/-- A parsed JSON value: an object (`dict` in the source, an ordered list of
key/value members), an array (`list`), or a scalar. -/
inductive Json where
  | scalar (s : Scalar)
  | arr (elems : List Json)
  | obj (members : List (String × Json))

/-- `isinstance(x, (dict, list))` from the source: is the value a container
(object or array)? -/
def isContainer : Json → Bool
  | .obj _ => true
  | .arr _ => true
  | .scalar _ => false

mutual

/-- Embedding of `get_keys(obj, prefix='')` from the source.

```python
def get_keys(obj, prefix=''):
    keys = []
    if isinstance(obj, dict):
        for k, v in obj.items():
            full_key = f"{prefix}.{k}" if prefix else k
            keys.append(full_key)
            keys.extend(get_keys(v, full_key))
    elif isinstance(obj, list):
        if obj and isinstance(obj[0], (dict, list)):
            keys.extend(get_keys(obj[0], f"{prefix}[]" if prefix else "[]"))
    return list(set(keys))
```

The per-call `list(set(keys))` is modelled by `List.dedup` (claims about the
result are stated up to set equality, since Python's set iteration order is
unspecified). -/
def get_keys : Json → String → List String
  | .scalar _, _ => ([] : List String).dedup
  | .arr [], _ => ([] : List String).dedup
  | .arr (e :: _), p =>
      (if isContainer e then get_keys e (if p = "" then "[]" else p ++ "[]")
       else []).dedup
  | .obj members, p => (objKeys members p).dedup

/-- The `for k, v in obj.items()` loop body of `get_keys`: for each member,
append `full_key` and the recursively extracted keys. -/
def objKeys : List (String × Json) → String → List String
  | [], _ => []
  | (k, v) :: rest, p =>
      let full := if p = "" then k else p ++ "." ++ k
      (full :: get_keys v full) ++ objKeys rest p

end

/-- A single step of a nesting route: entering an object member named `k`, or
entering the (sampled, first) element of an array. -/
inductive Step where
  | field (k : String)
  | idx
deriving DecidableEq

/-- The path string obtained by extending a path `p` by one step, exactly as
`get_keys` builds its prefixes. -/
def stepStr (p : String) : Step → String
  | .field k => if p = "" then k else p ++ "." ++ k
  | .idx => if p = "" then "[]" else p ++ "[]"

/-- The path string of a whole nesting route starting from path `p`. -/
def routeStr (p : String) : List Step → String
  | [] => p
  | s :: r => routeStr (stepStr p s) r

mutual

/-- The nesting routes whose path strings `get_keys` emits: one route per
object member encountered, descending through members and through the first
element of container-headed arrays, mirroring the recursion of `get_keys`. -/
def emittedRoutes : Json → List (List Step)
  | .scalar _ => []
  | .arr [] => []
  | .arr (e :: _) =>
      if isContainer e then (emittedRoutes e).map (fun r => Step.idx :: r)
      else []
  | .obj members => objRoutes members

/-- Routes emitted by the member loop of `get_keys`. -/
def objRoutes : List (String × Json) → List (List Step)
  | [] => []
  | (k, v) :: rest =>
      ([Step.field k] :: (emittedRoutes v).map (fun r => Step.field k :: r))
        ++ objRoutes rest

end

/-- A well-behaved object key: non-empty and containing neither `'.'` nor
`'['`.  Under this condition the path-string encoding of routes is
unambiguous. -/
def validKey (k : String) : Bool :=
  decide (k.data ≠ [] ∧ '.' ∉ k.data ∧ '[' ∉ k.data)

/-- A route all of whose field steps use well-behaved keys. -/
def validRoute : List Step → Bool
  | [] => true
  | .field k :: r => validKey k && validRoute r
  | .idx :: r => validRoute r

mutual

/-- Every object key occurring anywhere in the document is well-behaved. -/
def validKeys : Json → Bool
  | .scalar _ => true
  | .arr elems => validKeysList elems
  | .obj members => validKeysMembers members

/-- `validKeys` on every element of an array. -/
def validKeysList : List Json → Bool
  | [] => true
  | e :: rest => validKeys e && validKeysList rest

/-- `validKeys` on every member of an object. -/
def validKeysMembers : List (String × Json) → Bool
  | [] => true
  | (k, v) :: rest => validKey k && validKeys v && validKeysMembers rest

end

/-- Does the string start with the character `'.'`? -/
def startsDot (s : String) : Bool :=
  match s.data with
  | [] => false
  | c :: _ => c == '.'

mutual

/-- No object key occurring anywhere in the document starts with `'.'`. -/
def noDotKeys : Json → Bool
  | .scalar _ => true
  | .arr elems => noDotKeysList elems
  | .obj members => noDotKeysMembers members

/-- `noDotKeys` on every element of an array. -/
def noDotKeysList : List Json → Bool
  | [] => true
  | e :: rest => noDotKeys e && noDotKeysList rest

/-- `noDotKeys` on every member of an object. -/
def noDotKeysMembers : List (String × Json) → Bool
  | [] => true
  | (k, v) :: rest => !(startsDot k) && noDotKeys v && noDotKeysMembers rest

end

/-- Character-level token contributed by a non-initial route step. -/
def tokC : Step → List Char
  | .field k => '.' :: k.data
  | .idx => ['[', ']']

/-- Character-level token contributed by the first route step (no leading
dot for a field access at the root). -/
def headC : Step → List Char
  | .field k => k.data
  | .idx => ['[', ']']

/-- Character-level encoding of the non-initial part of a route. -/
def encC : List Step → List Char
  | [] => []
  | s :: r => tokC s ++ encC r

/-- The sample document `{"items": [{"x": 1}, {"y": 2}]}` from the spec. -/
def sampleItems : Json :=
  .obj [("items", .arr [.obj [("x", .scalar (.num 1))],
                        .obj [("y", .scalar (.num 2))]])]

/-- The sample document `[{"a": 1}]` from the spec. -/
def sampleRootArr : Json :=
  .arr [.obj [("a", .scalar (.num 1))]]

/-- The sample document `{"tags": [1, 2, 3]}` from the spec. -/
def sampleTags : Json :=
  .obj [("tags", .arr [.scalar (.num 1), .scalar (.num 2), .scalar (.num 3)])]

/-- The sample document `{"list": []}` from the spec. -/
def sampleEmptyList : Json :=
  .obj [("list", .arr [])]

/-- A document with a dot inside an object key: `{"a.b": 1, "a": {"b": 2}}`.
Two distinct nesting routes produce the path string `"a.b"`. -/
def sampleDotKey : Json :=
  .obj [("a.b", .scalar (.num 1)), ("a", .obj [("b", .scalar (.num 2))])]

/-- A document whose single top-level key starts with a dot: `{".x": 1}`. -/
def sampleDotStart : Json :=
  .obj [(".x", .scalar (.num 1))]

/-! ## General helper lemmas -/

/-- Deduplication does not change the underlying set. -/
theorem toFinset_dedup_eq {α : Type} [DecidableEq α] (l : List α) :
    l.dedup.toFinset = l.toFinset := by
  ext a
  simp [List.mem_toFinset, List.mem_dedup]

/-- Every branch of `get_keys` returns `list(set(...))`, so the result never
contains duplicates. -/
theorem nodup_get_keys (v : Json) (p : String) : (get_keys v p).Nodup := by
  cases v with
  | scalar s => simp [get_keys]
  | arr elems =>
      cases elems with
      | nil => simp [get_keys]
      | cons e tl => simp only [get_keys]; exact List.nodup_dedup _
  | obj members => simp only [get_keys]; exact List.nodup_dedup _

/-! ## Claim theorems (first batch) -/

/-- C6: for every scalar JSON value and every prefix, `get_keys` returns the
empty set. -/
theorem get_keys_scalar_empty (s : Scalar) (p : String) :
    (get_keys (Json.scalar s) p).toFinset = ∅ := by
  simp [get_keys]

/-- C5: an empty array, or an array whose first element is a scalar, yields no
paths at all, for any prefix; consequently `{"tags": [1,2,3]}` yields exactly
`{"tags"}` and `{"list": []}` yields exactly `{"list"}`. -/
theorem get_keys_array_not_descended :
    (∀ p, (get_keys (Json.arr []) p).toFinset = ∅) ∧
    (∀ s tl p, (get_keys (Json.arr (Json.scalar s :: tl)) p).toFinset = ∅) ∧
    (get_keys sampleTags "").toFinset = {"tags"} ∧
    (get_keys sampleEmptyList "").toFinset = {"list"} := by
  refine ⟨fun p => by simp [get_keys], fun s tl p => by simp [get_keys, isContainer],
    by decide, by decide⟩

/-- C8: for every JSON value and prefix, the list returned by `get_keys`
contains no duplicate strings. -/
theorem get_keys_no_duplicates (v : Json) (p : String) : (get_keys v p).Nodup :=
  nodup_get_keys v p

/-- C9: `get_keys` is a pure function of its input: two invocations on the
same value and prefix return equal results. -/
theorem get_keys_deterministic (v : Json) (p : String) :
    get_keys v p = get_keys v p := rfl

/-- C2: on a non-empty array whose first element is a container, `get_keys`
returns exactly the keys of the first element under the prefix extended by
`[]`; the remaining elements contribute nothing. -/
theorem get_keys_arr_first_element (e : Json) (rest : List Json) (p : String)
    (h : isContainer e = true) :
    get_keys (Json.arr (e :: rest)) p
      = get_keys e (if p = "" then "[]" else p ++ "[]") := by
  simp only [get_keys, h, if_true]
  exact List.dedup_eq_self.mpr (nodup_get_keys _ _)

/-- Witness for C2 at a concrete input. -/
theorem get_keys_arr_first_element_app :
    isContainer (Json.obj [("x", Json.scalar .null)]) = true ∧
    get_keys (Json.arr [Json.obj [("x", Json.scalar .null)], Json.scalar .null]) "a"
      = get_keys (Json.obj [("x", Json.scalar .null)])
          (if "a" = "" then "[]" else "a" ++ "[]") :=
  ⟨by decide,
   get_keys_arr_first_element (Json.obj [("x", Json.scalar .null)])
     [Json.scalar .null] "a" (by decide)⟩

/-- C3 (counterexample): on `{"items": [{"x": 1}, {"y": 2}]}` the result is
not `{"items", "items[]", "items[].x"}`: the path `"items[]"` naming the
sampled-array step is never emitted by the code. -/
theorem get_keys_items_claim_false :
    ¬ ((get_keys sampleItems "").toFinset = {"items", "items[]", "items[].x"}
        ∧ "items[]" ∈ get_keys sampleItems "") := by decide

/-- C3 (as amended): the result on `{"items": [{"x": 1}, {"y": 2}]}` is
exactly `{"items", "items[].x"}`; neither the bare array path `"items[]"` nor
any path from the second element appears. -/
theorem get_keys_items_exact :
    (get_keys sampleItems "").toFinset = {"items", "items[].x"} ∧
    "items[]" ∉ get_keys sampleItems "" ∧
    "items[].y" ∉ get_keys sampleItems "" := by decide

/-- C4 (counterexample): on the root-level array `[{"a": 1}]` the result is
not `{"[]", "[].a"}`: the bare path `"[]"` is never emitted by the code. -/
theorem get_keys_root_arr_claim_false :
    ¬ ((get_keys sampleRootArr "").toFinset = {"[]", "[].a"}
        ∧ "[]" ∈ get_keys sampleRootArr "") := by decide

/-- C4 (as amended): the result on the root-level array `[{"a": 1}]` with
empty prefix is exactly `{"[].a"}`; the bare path `"[]"` is not an element. -/
theorem get_keys_root_arr_exact :
    (get_keys sampleRootArr "").toFinset = {"[].a"} ∧
    "[]" ∉ get_keys sampleRootArr "" := by decide

/-- C1: on an object, the result is the union over the members `(k, v)` of
the singleton `{full}` together with the recursive extraction from `v` under
prefix `full`, where `full = p ++ "." ++ k` if `p` is non-empty and `full = k`
otherwise. -/
theorem get_keys_obj_member_union (members : List (String × Json)) (p : String) :
    (get_keys (Json.obj members) p).toFinset =
      members.foldr (fun kv acc =>
        insert (if p = "" then kv.1 else p ++ "." ++ kv.1)
          (get_keys kv.2 (if p = "" then kv.1 else p ++ "." ++ kv.1)).toFinset
          ∪ acc) ∅ := by
  rw [show get_keys (Json.obj members) p = (objKeys members p).dedup from by
        simp [get_keys]]
  rw [toFinset_dedup_eq]
  induction members with
  | nil => simp [objKeys]
  | cons kv rest ih =>
      obtain ⟨k, v⟩ := kv
      simp only [objKeys, List.toFinset_append, List.toFinset_cons,
        List.foldr_cons, ih, Finset.insert_union]

/-! ## String helper lemmas for prefix reasoning -/

/-- A string is non-empty iff its character list is. -/
theorem ne_empty_iff_data {s : String} : s ≠ "" ↔ s.data ≠ [] := by
  rw [ne_eq, ne_eq, String.ext_iff]

/-- Appending a non-empty string on the right gives a non-empty string. -/
theorem append_ne_empty_right (a : String) {b : String} (hb : b ≠ "") :
    a ++ b ≠ "" := by
  rw [ne_empty_iff_data] at hb ⊢
  rw [String.data_append]
  simp [hb]

/-- Appending to a non-empty string on the left gives a non-empty string. -/
theorem append_ne_empty_left {a : String} (b : String) (ha : a ≠ "") :
    a ++ b ≠ "" := by
  rw [ne_empty_iff_data] at ha ⊢
  rw [String.data_append]
  simp [ha]

/-- The first character of `p ++ x` is the first character of `p` when `p` is
non-empty. -/
theorem startsDot_append {p : String} (x : String) (hp : p ≠ "") :
    startsDot (p ++ x) = startsDot p := by
  rw [ne_empty_iff_data] at hp
  unfold startsDot
  rw [String.data_append]
  rcases h : p.data with _ | ⟨c, cs⟩
  · exact absurd h hp
  · simp

/-- A string that strictly extends `p` (by a dot step or a bracket step) is
not `p` itself. -/
theorem ne_of_extends {p s : String}
    (h : (∃ t, s = p ++ "." ++ t) ∨ (∃ t, s = p ++ "[]" ++ t)) : s ≠ p := by
  rintro rfl
  rcases h with ⟨t, ht⟩ | ⟨t, ht⟩
  · have hl := congrArg String.length ht
    rw [String.length_append, String.length_append] at hl
    have h1 : (".").length = 1 := rfl
    rw [h1] at hl
    omega
  · have hl := congrArg String.length ht
    rw [String.length_append, String.length_append] at hl
    have h1 : ("[]").length = 2 := rfl
    rw [h1] at hl
    omega

/-- Every key emitted under a non-empty prefix `p` extends `p` by a dot step
or a bracket step. -/
theorem extends_aux :
    ∀ (v : Json) (p : String), p ≠ "" → ∀ s ∈ get_keys v p,
      (∃ t, s = p ++ "." ++ t) ∨ (∃ t, s = p ++ "[]" ++ t) :=
  get_keys.induct
    (fun v p => p ≠ "" → ∀ s ∈ get_keys v p,
      (∃ t, s = p ++ "." ++ t) ∨ (∃ t, s = p ++ "[]" ++ t))
    (fun members p => p ≠ "" → ∀ s ∈ objKeys members p,
      (∃ t, s = p ++ "." ++ t) ∨ (∃ t, s = p ++ "[]" ++ t))
    (by intro s x _ t ht; simp [get_keys] at ht)
    (by intro x _ t ht; simp [get_keys] at ht)
    (by
      intro e tail p ih hp s hs
      simp only [get_keys, List.mem_dedup] at hs
      by_cases hc : isContainer e
      · rw [if_pos hc, if_neg hp] at hs
        rw [if_neg hp] at ih
        rcases ih (append_ne_empty_right p (by decide)) s hs with ⟨t, ht⟩ | ⟨t, ht⟩
        · exact Or.inr ⟨"." ++ t, by rw [ht, String.append_assoc]⟩
        · exact Or.inr ⟨"[]" ++ t, by rw [ht, String.append_assoc]⟩
      · rw [if_neg hc] at hs; simp at hs)
    (by
      intro members p ih hp s hs
      simp only [get_keys, List.mem_dedup] at hs
      exact ih hp s hs)
    (by intro x _ s hs; simp [objKeys] at hs)
    (by
      intro k v rest p full ih1 ih2 hp s hs
      have hfulleq : full = p ++ "." ++ k := if_neg hp
      rw [hfulleq] at ih1
      simp only [objKeys, List.mem_append, List.mem_cons, if_neg hp] at hs
      have hfull : p ++ "." ++ k ≠ "" :=
        append_ne_empty_left k (append_ne_empty_right p (by decide))
      rcases hs with (rfl | hs) | hs
      · exact Or.inl ⟨k, rfl⟩
      · rcases ih1 hfull s hs with ⟨t, ht⟩ | ⟨t, ht⟩
        · exact Or.inl ⟨k ++ ("." ++ t), by rw [ht]; simp [String.append_assoc]⟩
        · exact Or.inl ⟨k ++ ("[]" ++ t), by rw [ht]; simp [String.append_assoc]⟩
      · exact ih2 hp s hs)

/-- If no object key in the document starts with a dot and the prefix does not
start with a dot, then no emitted key starts with a dot. -/
theorem no_dot_aux :
    ∀ (v : Json) (p : String), noDotKeys v = true → startsDot p = false →
      ∀ s ∈ get_keys v p, startsDot s = false :=
  get_keys.induct
    (fun v p => noDotKeys v = true → startsDot p = false →
      ∀ s ∈ get_keys v p, startsDot s = false)
    (fun members p => noDotKeysMembers members = true → startsDot p = false →
      ∀ s ∈ objKeys members p, startsDot s = false)
    (by intro s x _ _ t ht; simp [get_keys] at ht)
    (by intro x _ _ t ht; simp [get_keys] at ht)
    (by
      intro e tail p ih hnd hp s hs
      simp only [get_keys, List.mem_dedup] at hs
      by_cases hc : isContainer e
      · rw [if_pos hc] at hs
        have hnde : noDotKeys e = true := by
          simp only [noDotKeys, noDotKeysList, Bool.and_eq_true] at hnd
          exact hnd.1
        have hq : startsDot (if p = "" then "[]" else p ++ "[]") = false := by
          by_cases hpe : p = ""
          · rw [if_pos hpe]; decide
          · rw [if_neg hpe, startsDot_append _ hpe]; exact hp
        exact ih hnde hq s hs
      · rw [if_neg hc] at hs; simp at hs)
    (by
      intro members p ih hnd hp s hs
      simp only [get_keys, List.mem_dedup] at hs
      exact ih (by simpa [noDotKeys] using hnd) hp s hs)
    (by intro x _ _ s hs; simp [objKeys] at hs)
    (by
      intro k v rest p full ih1 ih2 hnd hp s hs
      simp only [noDotKeysMembers, Bool.and_eq_true, Bool.not_eq_true'] at hnd
      have hfulleq : full = (if p = "" then k else p ++ "." ++ k) := rfl
      have hfull : startsDot full = false := by
        rw [hfulleq]
        by_cases hpe : p = ""
        · rw [if_pos hpe]; exact hnd.1.1
        · rw [if_neg hpe,
            startsDot_append _ (append_ne_empty_right p (show ("." : String) ≠ "" by decide)),
            startsDot_append _ hpe]
          exact hp
      simp only [objKeys, List.mem_append, List.mem_cons] at hs
      rw [← hfulleq] at hs
      rcases hs with (rfl | hs) | hs
      · exact hfull
      · exact ih1 hnd.1.2 hfull s hs
      · exact ih2 hnd.2 hp s hs)

/-- C10 (counterexample): on `{".x": 1}` with empty prefix the returned path
`".x"` starts with a dot, contrary to the claim. -/
theorem get_keys_dot_claim_false :
    ¬ (∀ s ∈ get_keys sampleDotStart "", startsDot s = false) := by decide

/-- C10 (as amended): under a non-empty prefix `p`, every returned path
strictly extends `p` — it is `p ++ "." ++ t` or `p ++ "[]" ++ t` — and in
particular is never `p` itself; under the empty prefix, provided no object
key in the document starts with `'.'`, no returned path starts with `'.'`. -/
theorem get_keys_path_extension (v : Json) (p : String) :
    (p ≠ "" → ∀ s ∈ get_keys v p,
      ((∃ t, s = p ++ "." ++ t) ∨ (∃ t, s = p ++ "[]" ++ t)) ∧ s ≠ p) ∧
    (noDotKeys v = true → ∀ s ∈ get_keys v "", startsDot s = false) := by
  constructor
  · intro hp s hs
    have h := extends_aux v p hp s hs
    exact ⟨h, ne_of_extends h⟩
  · intro hnd s hs
    exact no_dot_aux v "" hnd (by decide) s hs

/-- Witness for C10 at concrete inputs. -/
theorem get_keys_path_extension_app :
    (("a" : String) ≠ "" ∧
      "a.b" ∈ get_keys (Json.obj [("b", Json.scalar .null)]) "a" ∧
      (((∃ t, ("a.b" : String) = "a" ++ "." ++ t) ∨
        (∃ t, ("a.b" : String) = "a" ++ "[]" ++ t)) ∧ ("a.b" : String) ≠ "a")) ∧
    (noDotKeys sampleItems = true ∧
      ∀ s ∈ get_keys sampleItems "", startsDot s = false) :=
  ⟨⟨by decide, by decide,
    (get_keys_path_extension (Json.obj [("b", Json.scalar .null)]) "a").1
      (by decide) "a.b" (by decide)⟩,
   ⟨by decide, (get_keys_path_extension sampleItems "").2 (by decide)⟩⟩

/-! ## Routes: linking `get_keys` output to nesting routes -/

/-- A string is in the output of `get_keys` iff it is the path string of an
emitted nesting route. -/
theorem mem_get_keys_iff :
    ∀ (v : Json) (p : String), ∀ s,
      s ∈ get_keys v p ↔ ∃ r ∈ emittedRoutes v, routeStr p r = s :=
  get_keys.induct
    (fun v p => ∀ s, s ∈ get_keys v p ↔ ∃ r ∈ emittedRoutes v, routeStr p r = s)
    (fun members p => ∀ s,
      s ∈ objKeys members p ↔ ∃ r ∈ objRoutes members, routeStr p r = s)
    (by intro s x t; simp [get_keys, emittedRoutes])
    (by intro x t; simp [get_keys, emittedRoutes])
    (by
      intro e tail p ih s
      by_cases hc : isContainer e
      · simp only [get_keys, emittedRoutes, hc, if_true, List.mem_dedup]
        constructor
        · intro hs
          rcases (ih s).mp hs with ⟨r, hr, hrs⟩
          exact ⟨Step.idx :: r, List.mem_map_of_mem _ hr,
            by simpa [routeStr, stepStr] using hrs⟩
        · rintro ⟨r, hr, hrs⟩
          rcases List.mem_map.mp hr with ⟨r', hr', rfl⟩
          exact (ih s).mpr ⟨r', hr', by simpa [routeStr, stepStr] using hrs⟩
      · simp [get_keys, emittedRoutes, hc])
    (by
      intro members p ih s
      simp only [get_keys, emittedRoutes, List.mem_dedup]
      exact ih s)
    (by intro x s; simp [objKeys, objRoutes])
    (by
      intro k v rest p full ih1 ih2 s
      have hfulleq : full = (if p = "" then k else p ++ "." ++ k) := rfl
      constructor
      · intro hs
        simp only [objKeys, List.mem_append, List.mem_cons] at hs
        rw [← hfulleq] at hs
        rcases hs with (rfl | hs) | hs
        · refine ⟨[Step.field k], ?_, ?_⟩
          · simp [objRoutes]
          · simp only [routeStr, stepStr]
        · rcases (ih1 s).mp hs with ⟨r, hr, hrs⟩
          refine ⟨Step.field k :: r, ?_, ?_⟩
          · simp only [objRoutes, List.mem_append, List.mem_cons]
            exact Or.inl (Or.inr (List.mem_map_of_mem _ hr))
          · simpa [routeStr, stepStr] using hrs
        · rcases (ih2 s).mp hs with ⟨r, hr, hrs⟩
          refine ⟨r, ?_, hrs⟩
          simp only [objRoutes, List.mem_append]
          exact Or.inr hr
      · rintro ⟨r, hr, hrs⟩
        simp only [objRoutes, List.mem_append, List.mem_cons, List.mem_map] at hr
        simp only [objKeys, List.mem_append, List.mem_cons]
        rw [← hfulleq]
        rcases hr with (rfl | ⟨r', hr', rfl⟩) | hr
        · refine Or.inl (Or.inl ?_)
          simp only [routeStr, stepStr] at hrs
          exact hrs.symm.trans hfulleq.symm
        · exact Or.inl (Or.inr ((ih1 s).mpr
            ⟨r', hr', by simpa [routeStr, stepStr] using hrs⟩))
        · exact Or.inr ((ih2 s).mpr ⟨r, hr, hrs⟩))

/-- In a document all of whose keys are well-behaved, every emitted route is
valid and non-empty. -/
theorem emitted_valid :
    ∀ (v : Json), validKeys v = true →
      ∀ r ∈ emittedRoutes v, validRoute r = true ∧ r ≠ [] :=
  emittedRoutes.induct
    (fun v => validKeys v = true →
      ∀ r ∈ emittedRoutes v, validRoute r = true ∧ r ≠ [])
    (fun members => validKeysMembers members = true →
      ∀ r ∈ objRoutes members, validRoute r = true ∧ r ≠ [])
    (by intro s _ r hr; simp [emittedRoutes] at hr)
    (by intro _ r hr; simp [emittedRoutes] at hr)
    (by
      intro e tail hc ih hv r hr
      simp only [emittedRoutes, hc, if_true, List.mem_map] at hr
      rcases hr with ⟨r', hr', rfl⟩
      have hve : validKeys e = true := by
        simp only [validKeys, validKeysList, Bool.and_eq_true] at hv
        exact hv.1
      have h' := ih hve r' hr'
      exact ⟨by simp [validRoute, h'.1], by simp⟩)
    (by
      intro e tail hc hv r hr
      simp [emittedRoutes, hc] at hr)
    (by
      intro members ih hv r hr
      exact ih (by simpa [validKeys] using hv) r
        (by simpa [emittedRoutes] using hr))
    (by intro _ r hr; simp [objRoutes] at hr)
    (by
      intro k v rest ih1 ih2 hv r hr
      simp only [validKeysMembers, Bool.and_eq_true] at hv
      simp only [objRoutes, List.mem_append, List.mem_cons, List.mem_map] at hr
      rcases hr with (rfl | ⟨r', hr', rfl⟩) | hr
      · exact ⟨by simp [validRoute, hv.1.1], by simp⟩
      · have h' := ih1 hv.1.2 r' hr'
        exact ⟨by simp [validRoute, hv.1.1, h'.1], by simp⟩
      · exact ih2 hv.2 r hr)

/-! ## Injectivity of the path-string encoding for well-behaved keys -/

/-- The tail encoding of a route is empty or starts with `'.'` or `'['`. -/
theorem encC_head (r : List Step) :
    encC r = [] ∨ (∃ t, encC r = '.' :: t) ∨ (∃ t, encC r = '[' :: t) := by
  cases r with
  | nil => exact Or.inl rfl
  | cons s r =>
      cases s with
      | field k => exact Or.inr (Or.inl ⟨k.data ++ encC r, by simp [encC, tokC]⟩)
      | idx => exact Or.inr (Or.inr ⟨']' :: encC r, by simp [encC, tokC]⟩)

/-- Cancellation: if two separator-free character lists are continued by
suffixes starting with a separator (or empty), equal concatenations force
equal parts. -/
theorem cancel_sep :
    ∀ (a b x y : List Char),
      '.' ∉ a → '[' ∉ a → '.' ∉ b → '[' ∉ b →
      (x = [] ∨ (∃ t, x = '.' :: t) ∨ (∃ t, x = '[' :: t)) →
      (y = [] ∨ (∃ t, y = '.' :: t) ∨ (∃ t, y = '[' :: t)) →
      a ++ x = b ++ y → a = b ∧ x = y := by
  intro a
  induction a with
  | nil =>
      intro b x y _ _ hb1 hb2 hx _ h
      cases b with
      | nil => exact ⟨rfl, h⟩
      | cons c b' =>
          exfalso
          simp only [List.nil_append, List.cons_append] at h
          rcases hx with rfl | ⟨t, rfl⟩ | ⟨t, rfl⟩
          · exact (List.cons_ne_nil _ _) h.symm
          · injection h with h1 _
            apply hb1
            rw [← h1]
            exact List.mem_cons_self _ _
          · injection h with h1 _
            apply hb2
            rw [← h1]
            exact List.mem_cons_self _ _
  | cons c a' iha =>
      intro b x y ha1 ha2 hb1 hb2 hx hy h
      cases b with
      | nil =>
          exfalso
          simp only [List.nil_append, List.cons_append] at h
          rcases hy with rfl | ⟨t, rfl⟩ | ⟨t, rfl⟩
          · exact (List.cons_ne_nil _ _) h
          · injection h with h1 _
            apply ha1
            rw [← h1]
            exact List.mem_cons_self _ _
          · injection h with h1 _
            apply ha2
            rw [← h1]
            exact List.mem_cons_self _ _
      | cons c2 b' =>
          simp only [List.cons_append] at h
          injection h with h1 h2
          obtain ⟨hab, hxy⟩ := iha b' x y
            (fun hm => ha1 (List.mem_cons_of_mem _ hm))
            (fun hm => ha2 (List.mem_cons_of_mem _ hm))
            (fun hm => hb1 (List.mem_cons_of_mem _ hm))
            (fun hm => hb2 (List.mem_cons_of_mem _ hm))
            hx hy h2
          exact ⟨by rw [h1, hab], hxy⟩

/-- Unpack the three conditions of `validKey`. -/
theorem validKey_props {k : String} (h : validKey k = true) :
    k.data ≠ [] ∧ '.' ∉ k.data ∧ '[' ∉ k.data := by
  simpa [validKey] using h

/-- The tail encoding is injective on valid routes. -/
theorem encC_inj :
    ∀ (r1 r2 : List Step), validRoute r1 = true → validRoute r2 = true →
      encC r1 = encC r2 → r1 = r2 := by
  intro r1
  induction r1 with
  | nil =>
      intro r2 _ _ h
      cases r2 with
      | nil => rfl
      | cons s r =>
          exfalso
          cases s <;> simp [encC, tokC] at h
  | cons s1 r1 ih =>
      intro r2 h1 h2 h
      cases r2 with
      | nil =>
          exfalso
          cases s1 <;> simp [encC, tokC] at h
      | cons s2 r2 =>
          cases s1 with
          | field k1 =>
              cases s2 with
              | field k2 =>
                  simp only [encC, tokC, List.cons_append] at h
                  injection h with _ h'
                  simp only [validRoute, Bool.and_eq_true] at h1 h2
                  obtain ⟨hk1, hr1⟩ := h1
                  obtain ⟨hk2, hr2⟩ := h2
                  obtain ⟨_, hd1, hb1⟩ := validKey_props hk1
                  obtain ⟨_, hd2, hb2⟩ := validKey_props hk2
                  obtain ⟨hk, he⟩ := cancel_sep _ _ _ _ hd1 hb1 hd2 hb2
                    (encC_head r1) (encC_head r2) h'
                  rw [String.ext hk, ih r2 hr1 hr2 he]
              | idx =>
                  exfalso
                  simp only [encC, tokC, List.cons_append] at h
                  injection h with h1' _
                  exact absurd h1' (by decide)
          | idx =>
              cases s2 with
              | field k2 =>
                  exfalso
                  simp only [encC, tokC, List.cons_append] at h
                  injection h with h1' _
                  exact absurd h1' (by decide)
              | idx =>
                  simp only [encC, tokC, List.cons_append, List.nil_append,
                    List.cons.injEq, true_and] at h
                  simp only [validRoute] at h1 h2
                  rw [ih r2 h1 h2 h]

/-- Character data of `stepStr` under a non-empty path. -/
theorem stepStr_data {p : String} (s : Step) (hp : p ≠ "") :
    (stepStr p s).data = p.data ++ tokC s := by
  cases s with
  | field k =>
      simp only [stepStr, if_neg hp, tokC]
      rw [String.data_append, String.data_append]
      have hd : (".").data = ['.'] := rfl
      rw [hd]
      simp [List.append_assoc]
  | idx =>
      simp only [stepStr, if_neg hp, tokC]
      rw [String.data_append]

/-- `stepStr` never produces the empty string from a non-empty path. -/
theorem stepStr_ne_empty {p : String} (s : Step) (hp : p ≠ "") :
    stepStr p s ≠ "" := by
  cases s with
  | field k =>
      simp only [stepStr, if_neg hp]
      exact append_ne_empty_left _ (append_ne_empty_left _ hp)
  | idx =>
      simp only [stepStr, if_neg hp]
      exact append_ne_empty_left _ hp

/-- Character data of `routeStr` under a non-empty path. -/
theorem routeStr_data :
    ∀ (r : List Step) (p : String), p ≠ "" →
      (routeStr p r).data = p.data ++ encC r := by
  intro r
  induction r with
  | nil => intro p hp; simp [routeStr, encC]
  | cons s rest ih =>
      intro p hp
      rw [show routeStr p (s :: rest) = routeStr (stepStr p s) rest from rfl]
      rw [ih (stepStr p s) (stepStr_ne_empty s hp), stepStr_data s hp]
      simp [encC, List.append_assoc]

/-- Character data of `routeStr` from the root, field-headed route. -/
theorem routeStr_nil_data_field {k : String} (r : List Step) (hk : k ≠ "") :
    (routeStr "" (Step.field k :: r)).data = k.data ++ encC r := by
  rw [show routeStr "" (Step.field k :: r)
        = routeStr (stepStr "" (Step.field k)) r from rfl]
  have h : stepStr "" (Step.field k) = k := by simp [stepStr]
  rw [h, routeStr_data r k hk]

/-- Character data of `routeStr` from the root, index-headed route. -/
theorem routeStr_nil_data_idx (r : List Step) :
    (routeStr "" (Step.idx :: r)).data = '[' :: ']' :: encC r := by
  rw [show routeStr "" (Step.idx :: r) = routeStr (stepStr "" Step.idx) r from rfl]
  have h : stepStr "" Step.idx = "[]" := by simp [stepStr]
  rw [h, routeStr_data r "[]" (by decide)]
  rfl

/-- On valid routes, the path string from the root determines the route. -/
theorem routeStr_inj (r1 r2 : List Step)
    (h1 : validRoute r1 = true) (h2 : validRoute r2 = true)
    (h : routeStr "" r1 = routeStr "" r2) : r1 = r2 := by
  have hd := congrArg String.data h
  cases r1 with
  | nil =>
      cases r2 with
      | nil => rfl
      | cons s2 r2' =>
          exfalso
          cases s2 with
          | field k2 =>
              simp only [validRoute, Bool.and_eq_true] at h2
              have hk2 := (validKey_props h2.1).1
              rw [routeStr_nil_data_field r2' (ne_empty_iff_data.mpr hk2)] at hd
              exact hk2 (List.append_eq_nil.mp hd.symm).1
          | idx =>
              rw [routeStr_nil_data_idx r2'] at hd
              exact List.cons_ne_nil _ _ hd.symm
  | cons s1 r1' =>
      cases r2 with
      | nil =>
          exfalso
          cases s1 with
          | field k1 =>
              simp only [validRoute, Bool.and_eq_true] at h1
              have hk1 := (validKey_props h1.1).1
              rw [routeStr_nil_data_field r1' (ne_empty_iff_data.mpr hk1)] at hd
              exact hk1 (List.append_eq_nil.mp hd).1
          | idx =>
              rw [routeStr_nil_data_idx r1'] at hd
              exact List.cons_ne_nil _ _ hd
      | cons s2 r2' =>
          cases s1 with
          | field k1 =>
              simp only [validRoute, Bool.and_eq_true] at h1
              obtain ⟨hvk1, hvr1⟩ := h1
              obtain ⟨hk1ne, hd1, hb1⟩ := validKey_props hvk1
              cases s2 with
              | field k2 =>
                  simp only [validRoute, Bool.and_eq_true] at h2
                  obtain ⟨hvk2, hvr2⟩ := h2
                  obtain ⟨hk2ne, hd2, hb2⟩ := validKey_props hvk2
                  rw [routeStr_nil_data_field r1' (ne_empty_iff_data.mpr hk1ne),
                      routeStr_nil_data_field r2' (ne_empty_iff_data.mpr hk2ne)] at hd
                  obtain ⟨hk, he⟩ := cancel_sep _ _ _ _ hd1 hb1 hd2 hb2
                    (encC_head r1') (encC_head r2') hd
                  rw [String.ext hk, encC_inj r1' r2' hvr1 hvr2 he]
              | idx =>
                  exfalso
                  simp only [validRoute] at h2
                  rw [routeStr_nil_data_field r1' (ne_empty_iff_data.mpr hk1ne),
                      routeStr_nil_data_idx r2'] at hd
                  rcases hx : k1.data with _ | ⟨c, cs⟩
                  · exact hk1ne hx
                  · rw [hx] at hd
                    simp only [List.cons_append] at hd
                    injection hd with hc _
                    apply hb1
                    rw [hx, hc]
                    exact List.mem_cons_self _ _
          | idx =>
              cases s2 with
              | field k2 =>
                  exfalso
                  simp only [validRoute, Bool.and_eq_true] at h2
                  obtain ⟨hvk2, hvr2⟩ := h2
                  obtain ⟨hk2ne, hd2, hb2⟩ := validKey_props hvk2
                  rw [routeStr_nil_data_idx r1',
                      routeStr_nil_data_field r2' (ne_empty_iff_data.mpr hk2ne)] at hd
                  rcases hx : k2.data with _ | ⟨c, cs⟩
                  · exact hk2ne hx
                  · rw [hx] at hd
                    simp only [List.cons_append] at hd
                    injection hd with hc _
                    apply hb2
                    rw [hx, ← hc]
                    exact List.mem_cons_self _ _
              | idx =>
                  simp only [validRoute] at h1 h2
                  rw [routeStr_nil_data_idx r1', routeStr_nil_data_idx r2'] at hd
                  simp only [List.cons.injEq, true_and] at hd
                  rw [encC_inj r1' r2' h1 h2 hd]

/-- C7 (counterexample): in `{"a.b": 1, "a": {"b": 2}}` the two distinct
nesting routes `[member "a.b"]` and `[member "a", member "b"]` both produce
the path string `"a.b"`, which is in the result, so a produced path does not
correspond to exactly one nesting route. -/
theorem get_keys_route_collision :
    [Step.field "a.b"] ∈ emittedRoutes sampleDotKey ∧
    [Step.field "a", Step.field "b"] ∈ emittedRoutes sampleDotKey ∧
    routeStr "" [Step.field "a.b"] = "a.b" ∧
    routeStr "" [Step.field "a", Step.field "b"] = "a.b" ∧
    ([Step.field "a.b"] : List Step) ≠ [Step.field "a", Step.field "b"] ∧
    "a.b" ∈ get_keys sampleDotKey "" := by decide

/-- C7 (as amended): in a document all of whose object keys are non-empty and
contain neither `'.'` nor `'['`, every path string produced by `get_keys`
corresponds to exactly one emitted nesting route. -/
theorem get_keys_unique_route (d : Json) (hv : validKeys d = true)
    (s : String) (hs : s ∈ get_keys d "") :
    ∃! r, r ∈ emittedRoutes d ∧ routeStr "" r = s := by
  obtain ⟨r, hr, hrs⟩ := (mem_get_keys_iff d "" s).mp hs
  refine ⟨r, ⟨hr, hrs⟩, ?_⟩
  rintro r' ⟨hr', hrs'⟩
  exact routeStr_inj r' r (emitted_valid d hv r' hr').1 (emitted_valid d hv r hr).1
    (by rw [hrs', hrs])

/-- Witness for C7 at a concrete input. -/
theorem get_keys_unique_route_app :
    validKeys sampleItems = true ∧
    "items[].x" ∈ get_keys sampleItems "" ∧
    (∃! r, r ∈ emittedRoutes sampleItems ∧ routeStr "" r = "items[].x") :=
  ⟨by decide, by decide,
   get_keys_unique_route sampleItems (by decide) "items[].x" (by decide)⟩
